import Mathlib

/-!
Shallow embedding of the ordered parallel CSV sink
(crates/polars-stream/src/nodes/io_sinks/csv.rs) and of the glob scan
finisher (crates/polars-lazy/src/scan/file_list_reader.rs), together with
proofs of the specified properties.

Components of the repository that are referenced by csv.rs but whose code
is not part of the two source files (the CSV batched writer of polars-io,
the linearizer of async_primitives, tokio_sync_on_close and the sink port
types of io_sinks/mod.rs) are modelled from the specification; each such
definition carries a doc comment saying so.
-/

namespace PolarsCsvSink

/-- A CSV field value; rows of a frame are lists of fields. -/
abbrev Row := List String

/-- A tabular chunk, as the list of its rows. -/
abbrev DF := List Row

/-- Error type standing for PolarsError. -/
inductive PError
  | computeError (msg : String)
  | ioError (msg : String)
  | invalidOperation (msg : String)
deriving DecidableEq

/-- Abstract tokens of the output byte stream: a UTF-8 BOM, a header line
derived from a schema, or one encoded record line. -/
inductive OutTok
  | bom
  | headerLine (fields : List String)
  | record (row : Row)
deriving DecidableEq

/-- True exactly on the BOM token. -/
def OutTok.isBomTok : OutTok → Bool
  | .bom => true
  | _ => false

/-- True exactly on a header-line token. -/
def OutTok.isHeaderTok : OutTok → Bool
  | .headerLine _ => true
  | _ => false

/-- Modelled from the spec: the batched CSV writer of polars-io (not under
src/). Per spec section 6 the produced stream is: a UTF-8 BOM iff
include_bom, then a header line with the schema field names iff
include_header, then one record line per source row. -/
def csvWriteBatch (schema : List String) (includeBom includeHeader : Bool)
    (df : DF) : List OutTok :=
  (if includeBom then [OutTok.bom] else [])
    ++ (if includeHeader then [OutTok.headerLine schema] else [])
    ++ df.map OutTok.record

/-- Encoding of one morsel by an encoder worker: csv.rs lines 110-127
construct a CsvWriter with include_bom(false) and include_header(false)
and write the frame in one batch. -/
def csvEncodeMorsel (schema : List String) (df : DF) : List OutTok :=
  csvWriteBatch schema false false df

/-- The condition guarding the header write in the IO task, csv.rs line
162: include_header || include_bom. -/
def ioHeaderInvoked (includeHeader includeBom : Bool) : Bool :=
  includeHeader || includeBom

/-- Tokens the IO task writes before draining the linearizer, csv.rs lines
161-169: when the guard holds, a batched CSV writer with the configured
flags is applied to an empty frame of the schema. -/
def ioPrelude (schema : List String) (includeBom includeHeader : Bool) :
    List OutTok :=
  if ioHeaderInvoked includeHeader includeBom then
    csvWriteBatch schema includeBom includeHeader []
  else []

/-- The complete token stream the IO task writes: the prelude followed by
the drained buffers, written verbatim in drain order (csv.rs 161-175). -/
def ioTaskOutput (schema : List String) (includeBom includeHeader : Bool)
    (bufs : List (List OutTok)) : List OutTok :=
  ioPrelude schema includeBom includeHeader ++ bufs.flatten

/-- Modelled from the spec: rendering of one output token to bytes; the
UTF-8 BOM is the three bytes EF BB BF (spec section 6); header and record
rendering depend on the dialect and are passed as parameters. -/
def tokBytes (hdr : List String → List Nat) (rc : Row → List Nat) :
    OutTok → List Nat
  | .bom => [239, 187, 191]
  | .headerLine ns => hdr ns
  | .record r => rc r

/-- Bytes of a token stream. -/
def outBytes (hdr : List String → List Nat) (rc : Row → List Nat)
    (toks : List OutTok) : List Nat :=
  (toks.map (tokBytes hdr rc)).flatten

/-- A morsel as the encoder sees it after into_inner (csv.rs line 108):
the frame and the sequence number; the consume token is represented by
its drop event in the encoder trace. -/
structure Morsel where
  df : DF
  seq : Nat
deriving DecidableEq

/-- DEFAULT_ALLOCATION_SIZE, csv.rs line 92: 1 shifted left by 24. -/
def DEFAULT_ALLOCATION_SIZE : Nat := 1 <<< 24

/-- Events of one encoder worker, in program order of csv.rs 107-137:
receive a morsel, encode its batch, drop the consume token, attempt the
linearizer insert. -/
inductive EncEvent
  | recvMorsel (seq : Nat)
  | encodeBatch (seq : Nat)
  | dropConsumeToken (seq : Nat)
  | insertLin (seq : Nat)
deriving DecidableEq

/-- Boolean success test for Except. -/
def isOkE {ε α : Type} : Except ε α → Bool
  | .ok _ => true
  | .error _ => false

/-- Result of running one encoder worker. -/
structure EncRun (β : Type) where
  events : List EncEvent
  inserted : List (Nat × β)
  encodedLens : List Nat
  allocs : List Nat
  result : Except PError Unit

/-- One encoder worker loop, csv.rs lines 101-141. `enc` is the batched
CSV serialization of one frame (may fail, line 125-127), `len` the byte
length of an encoded buffer, `closed i` whether the linearizer rejects the
i-th insert because the consumer is gone (line 135). Per morsel: receive,
encode (a failure propagates, line 127), update allocation_size to
max(allocation_size, buffer.len()) (line 129), drop the consume token
(line 132), insert into the linearizer; a rejected insert returns Ok(())
at once (line 136). -/
def encoderGo {β : Type} (enc : DF → Except PError β) (len : β → Nat)
    (closed : Nat → Bool) :
    List Morsel → Nat → Nat → EncRun β
  | [], _, _ => ⟨[], [], [], [], .ok ()⟩
  | m :: ms, alloc, i =>
    match enc m.df with
    | .error e => ⟨[.recvMorsel m.seq], [], [], [], .error e⟩
    | .ok buf =>
      let alloc2 := Nat.max alloc (len buf)
      if closed i then
        ⟨[.recvMorsel m.seq, .encodeBatch m.seq, .dropConsumeToken m.seq,
           .insertLin m.seq],
         [], [len buf], [alloc2], .ok ()⟩
      else
        let rest := encoderGo enc len closed ms alloc2 (i + 1)
        ⟨.recvMorsel m.seq :: .encodeBatch m.seq ::
           .dropConsumeToken m.seq :: .insertLin m.seq :: rest.events,
         (m.seq, buf) :: rest.inserted,
         len buf :: rest.encodedLens,
         alloc2 :: rest.allocs,
         rest.result⟩

/-- An encoder worker run from its initial state: allocation_size starts
at DEFAULT_ALLOCATION_SIZE (csv.rs line 104) and no insert has been
attempted yet. -/
def encoderTask {β : Type} (enc : DF → Except PError β) (len : β → Nat)
    (closed : Nat → Bool) (ms : List Morsel) : EncRun β :=
  encoderGo enc len closed ms DEFAULT_ALLOCATION_SIZE 0

/-- The encoder serialization used by the CSV sink on the failure-free
path: flags disabled, dialect applied (csv.rs 110-127). -/
def csvSinkEncodeDf (schema : List String) (df : DF) :
    Except PError (List OutTok) :=
  .ok (csvEncodeMorsel schema df)

/-- The (seq, buffer) pairs one lane hands to the linearizer when no
serialization error occurs and the consumer stays alive. -/
def sinkEncodedLane (schema : List String) (ms : List Morsel) :
    List (Nat × List OutTok) :=
  (encoderTask (csvSinkEncodeDf schema) List.length (fun _ => false)
    ms).inserted

/-- The per-lane buffers sitting in the linearizer: one list of
(seq, payload) pairs per producer lane. -/
abbrev Lanes (β : Type) := List (List (Nat × β))

/-- Modelled from the spec: one step of the maintain_order linearizer of
async_primitives (not under src/), spec section 4.3: among the non-empty
lanes, pick the head with the globally minimal sequence number and remove
it, keeping all other lanes intact. -/
def pickMin {β : Type} : Lanes β → Option ((Nat × β) × Lanes β)
  | [] => none
  | [] :: rest =>
    match pickMin rest with
    | none => none
    | some (e, rest2) => some (e, [] :: rest2)
  | ((s, b) :: xs) :: rest =>
    match pickMin rest with
    | none => some ((s, b), xs :: rest)
    | some ((s2, b2), rest2) =>
      if s ≤ s2 then some ((s, b), xs :: rest)
      else some ((s2, b2), ((s, b) :: xs) :: rest2)

/-- Fuelled iteration of pickMin. -/
def linearizeFuel {β : Type} : Nat → Lanes β → List (Nat × β)
  | 0, _ => []
  | fuel + 1, lanes =>
    match pickMin lanes with
    | none => []
    | some (e, rest) => e :: linearizeFuel fuel rest

/-- Modelled from the spec: the complete emission order of the
maintain_order linearizer once all producers have finished: repeatedly
emit the globally minimal head until every lane is empty. -/
def linearizeOrdered {β : Type} (lanes : Lanes β) : List (Nat × β) :=
  linearizeFuel lanes.flatten.length lanes

/-- The sequence of (seq, buffer) pairs the IO task writes after the
prelude (csv.rs 173-175): the linearizer drain order over the encoder
lanes; ordered merge when maintain_order is set, lane concatenation (one
admissible arrival order) otherwise. -/
def ioWrittenBuffers (maintainOrder : Bool) (schema : List String)
    (lanes : List (List Morsel)) : List (Nat × List OutTok) :=
  if maintainOrder then
    linearizeOrdered (lanes.map (sinkEncodedLane schema))
  else (lanes.map (sinkEncodedLane schema)).flatten

/-- SyncOnClose of polars_plan (declared outside src/), variants per the
spec: none, data, all. -/
inductive SyncOnClose
  | None
  | Data
  | All
deriving DecidableEq

/-- Which fsync a backend performs. -/
inductive FsyncKind
  | dataOnly
  | full
deriving DecidableEq

/-- The two variants of AsyncWriteable. -/
inductive AsyncWriteableBackend
  | Local
  | Cloud
deriving DecidableEq

/-- Modelled from the spec: tokio_sync_on_close of io_sinks/mod.rs (not
under src/): no fsync for None, a data-only fsync for Data, a full fsync
for All. -/
def tokioSyncOnClose : SyncOnClose → Option FsyncKind
  | .None => none
  | .Data => some .dataOnly
  | .All => some .full

/-- The fsync the IO task performs before close, csv.rs lines 177-179:
tokio_sync_on_close is called only when the async writeable is Local. -/
def ioTaskFsync (backend : AsyncWriteableBackend) (soc : SyncOnClose) :
    Option FsyncKind :=
  match backend with
  | .Local => tokioSyncOnClose soc
  | .Cloud => none

/-- The CSV serialize options the sink clones into each encoder (csv.rs
lines 114-123), kept abstract field by field. -/
structure SerializeOptionsM where
  separator : Nat
  quoteChar : Nat
  lineTerminator : String
  nullValue : String
deriving DecidableEq

/-- CsvWriterOptions as the sink reads them (csv.rs 99, 150-151). -/
structure CsvWriterOptionsM where
  includeBom : Bool
  includeHeader : Bool
  serializeOptions : SerializeOptionsM
deriving DecidableEq

/-- SinkOptions as the sink reads them (csv.rs 56, 88, 178). -/
structure SinkOptionsM where
  maintainOrder : Bool
  syncOnClose : SyncOnClose
deriving DecidableEq

/-- The CsvSinkNode fields (csv.rs 22-28). -/
structure CsvSinkNodeM where
  path : String
  schema : List String
  sinkOptions : SinkOptionsM
  writeOptions : CsvWriterOptionsM
  cloudOptions : Option String
deriving DecidableEq

/-- SinkInputPort of io_sinks/mod.rs (declared outside src/): either a
serial receiver or one receiver per lane. -/
inductive SinkInputPort (α : Type)
  | Serial (rx : α)
  | Parallel (rxs : List α)
deriving DecidableEq

/-- Modelled from the spec: SinkInputPort::parallel (io_sinks/mod.rs, not
under src/), spec section 4.1: the parallel view of the port, one receiver
per lane. -/
def SinkInputPort.parallelRxs {α : Type} : SinkInputPort α → List α
  | .Serial rx => [rx]
  | .Parallel rxs => rxs

/-- SinkRecvPort of io_sinks/mod.rs (declared outside src/), carrying the
still-unresolved per-lane receivers. -/
structure SinkRecvPort (α : Type) where
  rxs : List α
deriving DecidableEq

/-- The tasks a sink spawn registers with the join-handle collection. -/
inductive SinkTask (α : Type)
  | portDistributor
  | encoderWorker (rx : α) (schema : List String)
      (options : CsvWriterOptionsM)
  | ioWriter (path : String) (sinkOptions : SinkOptionsM)
      (schema : List String) (includeHeader includeBom : Bool)
      (cloudOptions : Option String)
deriving DecidableEq

/-- True on the tasks spawn_sink_once itself registers (encoder workers
and the IO task), false on the port-distribution task. -/
def SinkTask.isPipelineTask {α : Type} : SinkTask α → Bool
  | .portDistributor => false
  | _ => true

/-- Modelled from the spec: SinkRecvPort::parallel (io_sinks/mod.rs, not
under src/): resolves the port into its per-lane receivers and registers
one port-distribution task with the handle collection. -/
def SinkRecvPort.parallelView {α : Type} (p : SinkRecvPort α) :
    List α × SinkTask α :=
  (p.rxs, SinkTask.portDistributor)

/-- spawn_sink_once, csv.rs lines 75-190: resolve the parallel view of the
input port, then register one encoder worker per receiver (each holding a
clone of schema and write options, lines 97-99) and the single IO task
(holding path, sink options, schema, the two header flags and cloud
options, lines 147-152). -/
def spawnSinkOnce {α : Type} (node : CsvSinkNodeM) (_numPipelines : Nat)
    (recvPort : SinkInputPort α) : List (SinkTask α) :=
  (recvPort.parallelRxs.map fun rx =>
    SinkTask.encoderWorker rx node.schema node.writeOptions)
  ++ [SinkTask.ioWriter node.path node.sinkOptions node.schema
        node.writeOptions.includeHeader node.writeOptions.includeBom
        node.cloudOptions]

/-- spawn_sink, csv.rs lines 59-73: construct the parallel receivers from
the recv port (registering the distribution task) and delegate to
spawn_sink_once on the resulting parallel input port. -/
def spawnSink {α : Type} (node : CsvSinkNodeM) (numPipelines : Nat)
    (recvPortsRecv : SinkRecvPort α) : List (SinkTask α) :=
  (recvPortsRecv.parallelView).2 ::
    spawnSinkOnce node numPipelines
      (SinkInputPort.Parallel (recvPortsRecv.parallelView).1)

end PolarsCsvSink

namespace PolarsScan

open PolarsCsvSink (PError)

/-- The state of a LazyFileListReader implementor, with the trait's
abstract methods (finish_no_glob is a required method of the trait) and
the filesystem-dependent path expansion represented as oracle fields.
`α` stands for LazyFrame. -/
structure LazyReader (α : Type) where
  glob : Bool
  srcPaths : List String
  expandPathsDefaultResult : Except PError (List String)
  finishNoGlobSelf : Except PError α
  finishNoGlobAt : String → Except PError α
  concatImplFn : List α → Except PError α
  nRows : Option Nat
  rowIndexName : Option String
  sliceFn : α → Nat → α
  withRowIndexFn : α → String → α

/-- Debug rendering of the original path list, as the {:?} format of the
vector of path strings in file_list_reader.rs line 313. -/
def pathsDebugRepr (paths : List String) : String :=
  "[" ++ String.intercalate ", " (paths.map fun p => "\"" ++ p ++ "\"")
    ++ "]"

/-- Display form of an error, used when finish wraps a per-path failure. -/
def errDisplay : PError → String
  | .computeError m => m
  | .ioError m => m
  | .invalidOperation m => m

/-- LazyFileListReader::finish, file_list_reader.rs lines 285-325: without
glob, delegate to finish_no_glob; otherwise expand the paths, read each
expanded path with a clone stripped of row limit and row index (wrapping
any failure in a ComputeError naming the path), fail with a ComputeError
when no frame was produced, then concatenate and reapply the row limit and
row index. -/
def LazyFileListReader.finish {α : Type} (r : LazyReader α) :
    Except PError α :=
  if !r.glob then r.finishNoGlobSelf
  else do
    let paths ← r.expandPathsDefaultResult
    let lfs ← paths.mapM fun p =>
      match r.finishNoGlobAt p with
      | .ok lf => Except.ok lf
      | .error e => Except.error (PError.computeError
          ("error while reading " ++ p ++ ": " ++ errDisplay e))
    if lfs.isEmpty then
      Except.error (PError.computeError
        ("no matching files found in " ++ pathsDebugRepr r.srcPaths))
    else do
      let lf ← r.concatImplFn lfs
      let lf := match r.nRows with
        | some n => r.sliceFn lf n
        | none => lf
      let lf := match r.rowIndexName with
        | some nm => r.withRowIndexFn lf nm
        | none => lf
      Except.ok lf

/-- A concrete reader whose expansion succeeds with zero files. -/
def emptyGlobReader : LazyReader Nat where
  glob := true
  srcPaths := ["data/*.csv"]
  expandPathsDefaultResult := Except.ok []
  finishNoGlobSelf := Except.ok 0
  finishNoGlobAt := fun _ => Except.ok 0
  concatImplFn := fun _ => Except.ok 0
  nRows := none
  rowIndexName := none
  sliceFn := fun lf _ => lf
  withRowIndexFn := fun lf _ => lf

end PolarsScan

namespace PolarsCsvSink

theorem head?_scanl (f : Nat → Nat → Nat) (b : Nat) (l : List Nat) :
    (List.scanl f b l).head? = some b := by
  cases l <;> simp [List.scanl_cons, List.scanl_nil]

theorem chain_le_scanl_max (l : List Nat) (a : Nat) :
    List.Chain' (· ≤ ·) (List.scanl Nat.max a l) := by
  induction l generalizing a with
  | nil => simp [List.scanl_nil]
  | cons x l ih =>
    rw [List.scanl_cons, List.singleton_append]
    refine List.chain'_cons'.mpr ⟨?_, ih (Nat.max a x)⟩
    intro y hy
    rw [head?_scanl] at hy
    cases hy
    exact Nat.le_max_left a x

theorem encoderGo_allocs_scanl {β : Type} (enc : DF → Except PError β)
    (len : β → Nat) (closed : Nat → Bool) (ms : List Morsel) :
    ∀ (alloc i0 : Nat),
      alloc :: (encoderGo enc len closed ms alloc i0).allocs =
        List.scanl Nat.max alloc
          (encoderGo enc len closed ms alloc i0).encodedLens := by
  induction ms with
  | nil => intro alloc i0; simp [encoderGo, List.scanl_nil]
  | cons m ms ih =>
    intro alloc i0
    cases henc : enc m.df with
    | error e => simp [encoderGo, henc, List.scanl_nil]
    | ok buf =>
      by_cases hc : closed i0 = true
      · simp [encoderGo, henc, hc, List.scanl_cons, List.scanl_nil]
      · simp only [encoderGo, henc, hc, if_neg, Bool.not_eq_true]
        simp only [List.scanl_cons, List.cons_append, List.nil_append]
        rw [← ih (Nat.max alloc (len buf)) (i0 + 1)]

theorem encoderGo_result_ok {β : Type} (enc : DF → Except PError β)
    (len : β → Nat) (closed : Nat → Bool) (ms : List Morsel)
    (hok : ∀ m ∈ ms, isOkE (enc m.df) = true) :
    ∀ (alloc i0 : Nat),
      (encoderGo enc len closed ms alloc i0).result = Except.ok () := by
  induction ms with
  | nil => intro alloc i0; rfl
  | cons m ms ih =>
    intro alloc i0
    cases henc : enc m.df with
    | error e =>
      have := hok m (List.mem_cons_self m ms)
      rw [henc] at this
      simp [isOkE] at this
    | ok buf =>
      by_cases hc : closed i0 = true
      · simp [encoderGo, henc, hc]
      · simp only [encoderGo, henc, hc, if_neg, Bool.not_eq_true]
        exact ih (fun m hm => hok m (List.mem_cons_of_mem _ hm)) _ _

/-- Claim C7: allocation_size starts at DEFAULT_ALLOCATION_SIZE (16 MiB),
is updated after each morsel to max(allocation_size, buffer.len()), hence
the per-worker allocation trace is the running maximum of the encoded
buffer lengths and is non-decreasing. -/
theorem allocation_size_monotone {β : Type} (enc : DF → Except PError β)
    (len : β → Nat) (closed : Nat → Bool) (ms : List Morsel) :
    DEFAULT_ALLOCATION_SIZE :: (encoderTask enc len closed ms).allocs =
      List.scanl Nat.max DEFAULT_ALLOCATION_SIZE
        (encoderTask enc len closed ms).encodedLens
    ∧ DEFAULT_ALLOCATION_SIZE = 16 * 1024 * 1024
    ∧ List.Chain' (· ≤ ·)
        (DEFAULT_ALLOCATION_SIZE :: (encoderTask enc len closed ms).allocs) := by
  simp only [encoderTask]
  refine ⟨encoderGo_allocs_scanl enc len closed ms _ _, by decide, ?_⟩
  rw [encoderGo_allocs_scanl enc len closed ms _ _]
  exact chain_le_scanl_max _ _

/-- Claim C5: provided serialization itself never fails, an encoder worker
always resolves with Ok(()), in particular when the linearizer rejects its
insert because the IO task exited; when already the first insert is
rejected the worker stops at once, having handed over no buffer. -/
theorem encoder_ok_when_linearizer_closed {β : Type}
    (enc : DF → Except PError β) (len : β → Nat) (closed : Nat → Bool)
    (ms : List Morsel) (hok : ∀ m ∈ ms, isOkE (enc m.df) = true) :
    (encoderTask enc len closed ms).result = Except.ok () ∧
    (closed 0 = true → (encoderTask enc len closed ms).inserted = []) := by
  constructor
  · exact encoderGo_result_ok enc len closed ms hok _ _
  · intro hc
    cases ms with
    | nil => rfl
    | cons m ms =>
      cases henc : enc m.df with
      | error e =>
        have := hok m (List.mem_cons_self m ms)
        rw [henc] at this
        simp [isOkE] at this
      | ok buf => simp [encoderTask, encoderGo, henc, hc]

theorem encoder_ok_when_linearizer_closed_witness :
    (encoderTask (fun _ => Except.ok ([] : List OutTok)) List.length
      (fun _ => true) [⟨[], 0⟩]).result = Except.ok () ∧
    ((fun _ => true : Nat → Bool) 0 = true →
      (encoderTask (fun _ => Except.ok ([] : List OutTok)) List.length
        (fun _ => true) [⟨[], 0⟩]).inserted = []) :=
  encoder_ok_when_linearizer_closed _ _ _ _ (by decide)

end PolarsCsvSink

namespace PolarsCsvSink

theorem encoderGo_drop_precedes_insert {β : Type}
    (enc : DF → Except PError β) (len : β → Nat) (closed : Nat → Bool)
    (ms : List Morsel) :
    ∀ (alloc i0 i s : Nat),
      (encoderGo enc len closed ms alloc i0).events[i]? =
        some (EncEvent.insertLin s) →
      ∃ j, j < i ∧
        (encoderGo enc len closed ms alloc i0).events[j]? =
          some (EncEvent.dropConsumeToken s) := by
  induction ms with
  | nil =>
    intro alloc i0 i s h
    simp [encoderGo] at h
  | cons m ms ih =>
    intro alloc i0 i s h
    cases henc : enc m.df with
    | error e =>
      simp only [encoderGo, henc] at h
      match i with
      | 0 => simp at h
      | i + 1 => simp at h
    | ok buf =>
      by_cases hc : closed i0 = true
      · simp only [encoderGo, henc, hc, if_pos] at h
        match i with
        | 0 => simp at h
        | 1 => simp at h
        | 2 => simp at h
        | 3 =>
          simp only [List.getElem?_cons_succ, List.getElem?_cons_zero,
            Option.some.injEq, EncEvent.insertLin.injEq] at h
          subst h
          exact ⟨2, by omega, by
            simp only [encoderGo, henc, hc, if_pos]
            rfl⟩
        | i + 4 => simp at h
      · simp only [encoderGo, henc, hc, if_neg, Bool.not_eq_true] at h
        match i with
        | 0 => simp at h
        | 1 => simp at h
        | 2 => simp at h
        | 3 =>
          simp only [List.getElem?_cons_succ, List.getElem?_cons_zero,
            Option.some.injEq, EncEvent.insertLin.injEq] at h
          subst h
          refine ⟨2, by omega, ?_⟩
          simp only [encoderGo, henc, hc, if_neg, Bool.not_eq_true]
          rfl
        | i + 4 =>
          simp only [List.getElem?_cons_succ] at h
          obtain ⟨j, hj, hjev⟩ := ih (Nat.max alloc (len buf)) (i0 + 1) i s h
          refine ⟨j + 4, by omega, ?_⟩
          simp only [encoderGo, henc, hc, if_neg, Bool.not_eq_true,
            List.getElem?_cons_succ]
          exact hjev

/-- Claim C4: for every morsel an encoder worker processes, the consume
token drop event strictly precedes the linearizer insert event in the
worker trace: the worker never holds the token across the insert. -/
theorem consume_token_dropped_before_insert {β : Type}
    (enc : DF → Except PError β) (len : β → Nat) (closed : Nat → Bool)
    (ms : List Morsel) (i s : Nat)
    (h : (encoderTask enc len closed ms).events[i]? =
      some (EncEvent.insertLin s)) :
    ∃ j, j < i ∧
      (encoderTask enc len closed ms).events[j]? =
        some (EncEvent.dropConsumeToken s) :=
  encoderGo_drop_precedes_insert enc len closed ms _ _ i s h

theorem consume_token_dropped_before_insert_witness :
    ∃ j, j < 3 ∧
      (encoderTask (fun _ => Except.ok ([] : List OutTok)) List.length
        (fun _ => false) [⟨[], 0⟩]).events[j]? =
        some (EncEvent.dropConsumeToken 0) :=
  consume_token_dropped_before_insert _ _ _ _ 3 0 (by decide)

/-- Claim C3, counterexample: in the worker trace of a single morsel with
sequence number 0 the consume token drop sits at index 2 while no
linearizer insert precedes it, so the token is dropped before, not after,
the buffer is handed to the linearizer. -/
theorem consume_token_drop_not_after_insert :
    (encoderTask (fun _ => Except.ok ([] : List OutTok)) List.length
      (fun _ => false) [⟨[], 0⟩]).events[2]? =
      some (EncEvent.dropConsumeToken 0) ∧
    ¬ ∃ j, j < 2 ∧
      (encoderTask (fun _ => Except.ok ([] : List OutTok)) List.length
        (fun _ => false) [⟨[], 0⟩]).events[j]? =
        some (EncEvent.insertLin 0) := by
  constructor
  · rfl
  · decide

theorem encoderGo_head_not_insert {β : Type}
    (enc : DF → Except PError β) (len : β → Nat) (closed : Nat → Bool)
    (ms : List Morsel) (alloc i0 s : Nat) :
    (encoderGo enc len closed ms alloc i0).events[0]? ≠
      some (EncEvent.insertLin s) := by
  cases ms with
  | nil => simp [encoderGo]
  | cons m ms =>
    cases henc : enc m.df with
    | error e => simp [encoderGo, henc]
    | ok buf =>
      by_cases hc : closed i0 = true
      · simp [encoderGo, henc, hc]
      · simp [encoderGo, henc, hc]

theorem encoderGo_drop_adjacent_insert {β : Type}
    (enc : DF → Except PError β) (len : β → Nat) (closed : Nat → Bool)
    (ms : List Morsel) :
    ∀ (alloc i0 i s : Nat),
      (encoderGo enc len closed ms alloc i0).events[i + 1]? =
        some (EncEvent.insertLin s) →
      (encoderGo enc len closed ms alloc i0).events[i]? =
        some (EncEvent.dropConsumeToken s) := by
  induction ms with
  | nil =>
    intro alloc i0 i s h
    simp [encoderGo] at h
  | cons m ms ih =>
    intro alloc i0 i s h
    cases henc : enc m.df with
    | error e =>
      simp only [encoderGo, henc] at h
      match i with
      | 0 => simp at h
      | i + 1 => simp at h
    | ok buf =>
      by_cases hc : closed i0 = true
      · simp only [encoderGo, henc, hc, if_pos] at h
        match i with
        | 0 => simp at h
        | 1 => simp at h
        | 2 =>
          simp only [List.getElem?_cons_succ, List.getElem?_cons_zero,
            Option.some.injEq, EncEvent.insertLin.injEq] at h
          subst h
          simp only [encoderGo, henc, hc, if_pos]
          rfl
        | i + 3 => simp at h
      · simp only [encoderGo, henc, hc, if_neg, Bool.not_eq_true] at h
        match i with
        | 0 => simp at h
        | 1 => simp at h
        | 2 =>
          simp only [List.getElem?_cons_succ, List.getElem?_cons_zero,
            Option.some.injEq, EncEvent.insertLin.injEq] at h
          subst h
          simp only [encoderGo, henc, hc, if_neg, Bool.not_eq_true]
          rfl
        | 3 =>
          simp only [List.getElem?_cons_succ] at h
          exact absurd h
            (encoderGo_head_not_insert enc len closed ms _ _ s)
        | i + 4 =>
          simp only [List.getElem?_cons_succ] at h
          have := ih (Nat.max alloc (len buf)) (i0 + 1) i s h
          simp only [encoderGo, henc, hc, if_neg, Bool.not_eq_true,
            List.getElem?_cons_succ]
          exact this

/-- Claim C3, amended: the consume token of a morsel is dropped
immediately before, not after, the encoded buffer is handed to the
linearizer: in the worker trace every linearizer insert event is directly
preceded by the drop of that morsel's consume token. -/
theorem consume_token_drop_immediately_before_insert {β : Type}
    (enc : DF → Except PError β) (len : β → Nat) (closed : Nat → Bool)
    (ms : List Morsel) (i s : Nat)
    (h : (encoderTask enc len closed ms).events[i + 1]? =
      some (EncEvent.insertLin s)) :
    (encoderTask enc len closed ms).events[i]? =
      some (EncEvent.dropConsumeToken s) :=
  encoderGo_drop_adjacent_insert enc len closed ms _ _ i s h

theorem consume_token_drop_immediately_before_insert_witness :
    (encoderTask (fun _ => Except.ok ([] : List OutTok)) List.length
      (fun _ => false) [⟨[], 0⟩]).events[2]? =
      some (EncEvent.dropConsumeToken 0) :=
  consume_token_drop_immediately_before_insert _ _ _ _ 2 0 (by decide)

end PolarsCsvSink

namespace PolarsCsvSink

theorem mem_csvEncodeMorsel_isRecord (schema : List String) (df : DF)
    (t : OutTok) (ht : t ∈ csvEncodeMorsel schema df) :
    t.isBomTok = false ∧ t.isHeaderTok = false := by
  simp only [csvEncodeMorsel, csvWriteBatch, if_neg, Bool.false_eq_true,
    not_false_iff, List.nil_append, List.mem_map] at ht
  obtain ⟨r, _, rfl⟩ := ht
  exact ⟨rfl, rfl⟩

theorem countP_encoded_flatten_eq_zero (schema : List String)
    (dfs : List DF) (p : OutTok → Bool)
    (hp : ∀ t, t.isBomTok = false ∧ t.isHeaderTok = false → p t = false) :
    ((dfs.map (csvEncodeMorsel schema)).flatten).countP p = 0 := by
  refine List.countP_eq_zero.mpr ?_
  intro t ht
  rw [List.mem_flatten] at ht
  obtain ⟨l, hl, htl⟩ := ht
  rw [List.mem_map] at hl
  obtain ⟨df, _, rfl⟩ := hl
  have := hp t (mem_csvEncodeMorsel_isRecord schema df t htl)
  simp [this]

/-- Claim C2: for every configuration the IO task output stream contains
exactly one BOM token iff include_bom and exactly one header line iff
include_header, and the stream is the IO prelude followed by the encoder
buffers, which themselves contain neither a BOM nor a header regardless
of configuration. -/
theorem header_bom_uniqueness (schema : List String) (ib ih : Bool)
    (dfs : List DF) :
    (ioTaskOutput schema ib ih
        (dfs.map (csvEncodeMorsel schema))).countP OutTok.isBomTok =
      (if ib then 1 else 0)
    ∧ (ioTaskOutput schema ib ih
        (dfs.map (csvEncodeMorsel schema))).countP OutTok.isHeaderTok =
      (if ih then 1 else 0)
    ∧ ioTaskOutput schema ib ih (dfs.map (csvEncodeMorsel schema)) =
      ioPrelude schema ib ih ++ (dfs.map (csvEncodeMorsel schema)).flatten
    ∧ ((dfs.map (csvEncodeMorsel schema)).flatten).countP
        OutTok.isBomTok = 0
    ∧ ((dfs.map (csvEncodeMorsel schema)).flatten).countP
        OutTok.isHeaderTok = 0 := by
  have hbom0 : ((dfs.map (csvEncodeMorsel schema)).flatten).countP
      OutTok.isBomTok = 0 :=
    countP_encoded_flatten_eq_zero schema dfs _ (fun t h => h.1)
  have hhdr0 : ((dfs.map (csvEncodeMorsel schema)).flatten).countP
      OutTok.isHeaderTok = 0 :=
    countP_encoded_flatten_eq_zero schema dfs _ (fun t h => h.2)
  refine ⟨?_, ?_, rfl, hbom0, hhdr0⟩
  · rw [ioTaskOutput, List.countP_append, hbom0]
    cases ib <;> cases ih <;>
      simp [ioPrelude, ioHeaderInvoked, csvWriteBatch, List.countP_cons,
        OutTok.isBomTok, OutTok.isHeaderTok, List.countP_nil]
  · rw [ioTaskOutput, List.countP_append, hhdr0]
    cases ib <;> cases ih <;>
      simp [ioPrelude, ioHeaderInvoked, csvWriteBatch, List.countP_cons,
        OutTok.isBomTok, OutTok.isHeaderTok, List.countP_nil]

/-- Claim C6: with include_bom true and include_header false the IO task
still routes through the batched CSV header writer (the guard
include_header || include_bom holds), and for a single empty morsel the
complete output byte stream is exactly the three bytes EF BB BF. -/
theorem bom_only_output (hdr : List String → List Nat)
    (rc : Row → List Nat) (schema : List String) :
    ioHeaderInvoked false true = true ∧
    outBytes hdr rc
      (ioTaskOutput schema true false [csvEncodeMorsel schema []]) =
      [239, 187, 191] := by
  constructor
  · rfl
  · simp [outBytes, ioTaskOutput, ioPrelude, ioHeaderInvoked,
      csvWriteBatch, csvEncodeMorsel, tokBytes]

/-- Claim C8: after the drain loop the IO task performs an fsync before
close iff the backend is Local and sync_on_close is Data or All (data-only
for Data, full for All); a Cloud backend ignores sync_on_close and
performs no fsync. -/
theorem io_task_fsync_iff (b : AsyncWriteableBackend)
    (soc : SyncOnClose) :
    ((ioTaskFsync b soc).isSome = true ↔
      (b = AsyncWriteableBackend.Local ∧
        (soc = SyncOnClose.Data ∨ soc = SyncOnClose.All)))
    ∧ ioTaskFsync AsyncWriteableBackend.Cloud soc = none
    ∧ ioTaskFsync AsyncWriteableBackend.Local SyncOnClose.Data =
        some FsyncKind.dataOnly
    ∧ ioTaskFsync AsyncWriteableBackend.Local SyncOnClose.All =
        some FsyncKind.full := by
  cases b <;> cases soc <;> decide

/-- Claim C9: spawn_sink constructs the parallel receivers from the recv
port (registering the port-distribution handle) and delegates to
spawn_sink_once on the resulting parallel input port; both entry points
register the same encoder workers and the same IO task. -/
theorem spawn_sink_delegates {α : Type} (node : CsvSinkNodeM) (n : Nat)
    (rp : SinkRecvPort α) :
    spawnSink node n rp =
      (rp.parallelView).2 ::
        spawnSinkOnce node n
          (SinkInputPort.Parallel (rp.parallelView).1)
    ∧ (SinkInputPort.Parallel rp.rxs).parallelRxs = rp.rxs
    ∧ (spawnSink node n rp).filter SinkTask.isPipelineTask =
        spawnSinkOnce node n (SinkInputPort.Parallel rp.rxs) := by
  refine ⟨rfl, rfl, ?_⟩
  show (SinkTask.portDistributor ::
      spawnSinkOnce node n (SinkInputPort.Parallel rp.rxs)).filter
      SinkTask.isPipelineTask =
    spawnSinkOnce node n (SinkInputPort.Parallel rp.rxs)
  rw [List.filter_cons]
  simp only [SinkTask.isPipelineTask, Bool.false_eq_true, if_neg,
    not_false_iff]
  apply List.filter_eq_self.mpr
  intro t ht
  rcases List.mem_append.mp ht with h | h
  · obtain ⟨rx, _, rfl⟩ := List.mem_map.mp h
    rfl
  · rw [List.mem_singleton] at h
    subst h
    rfl

end PolarsCsvSink

namespace PolarsCsvSink

theorem chain_head_lt {β : Type} (a : Nat × β) (l : List (Nat × β))
    (h : List.Chain' (fun x y => x.1 < y.1) (a :: l)) :
    ∀ x ∈ l, a.1 < x.1 := by
  induction l generalizing a with
  | nil => intro x hx; simp at hx
  | cons b l ih =>
    intro x hx
    rw [List.chain'_cons] at h
    rcases List.mem_cons.mp hx with rfl | hx
    · exact h.1
    · exact Nat.lt_trans h.1 (ih b h.2 x hx)

theorem pickMin_eq_none {β : Type} :
    ∀ (lanes : Lanes β), pickMin lanes = none → lanes.flatten = [] := by
  intro lanes
  induction lanes with
  | nil => intro _; rfl
  | cons l rst ih =>
    intro h
    cases l with
    | nil =>
      cases hpm : pickMin rst with
      | none =>
        simp only [List.flatten_cons, List.nil_append]
        exact ih hpm
      | some p =>
        simp only [pickMin, hpm] at h
        exact Option.noConfusion h
    | cons hd xs =>
      obtain ⟨s, b⟩ := hd
      cases hpm : pickMin rst with
      | none =>
        simp only [pickMin, hpm] at h
        exact Option.noConfusion h
      | some p =>
        obtain ⟨⟨s2, b2⟩, rest2⟩ := p
        simp only [pickMin, hpm] at h
        by_cases hle : s ≤ s2
        · rw [if_pos hle] at h; simp at h
        · rw [if_neg hle] at h; simp at h

theorem pickMin_perm {β : Type} :
    ∀ (lanes : Lanes β) (e : Nat × β) (rest : Lanes β),
      pickMin lanes = some (e, rest) →
      List.Perm lanes.flatten (e :: rest.flatten) := by
  intro lanes
  induction lanes with
  | nil => intro e rest h; simp [pickMin] at h
  | cons l rst ih =>
    intro e rest h
    cases l with
    | nil =>
      cases hpm : pickMin rst with
      | none =>
        simp only [pickMin, hpm] at h
        exact Option.noConfusion h
      | some p =>
        obtain ⟨e2, rest2⟩ := p
        simp only [pickMin, hpm, Option.some.injEq, Prod.mk.injEq] at h
        obtain ⟨rfl, rfl⟩ := h
        simp only [List.flatten_cons, List.nil_append]
        exact ih _ _ hpm
    | cons hd xs =>
      obtain ⟨s, b⟩ := hd
      cases hpm : pickMin rst with
      | none =>
        simp only [pickMin, hpm, Option.some.injEq, Prod.mk.injEq] at h
        obtain ⟨rfl, rfl⟩ := h
        simp [List.flatten_cons]
      | some p =>
        obtain ⟨⟨s2, b2⟩, rest2⟩ := p
        simp only [pickMin, hpm] at h
        by_cases hle : s ≤ s2
        · rw [if_pos hle] at h
          simp only [Option.some.injEq, Prod.mk.injEq] at h
          obtain ⟨rfl, rfl⟩ := h
          simp [List.flatten_cons]
        · rw [if_neg hle] at h
          simp only [Option.some.injEq, Prod.mk.injEq] at h
          obtain ⟨rfl, rfl⟩ := h
          simp only [List.flatten_cons]
          exact ((ih _ _ hpm).append_left ((s, b) :: xs)).trans
            List.perm_middle

theorem pickMin_lanes_sorted {β : Type} :
    ∀ (lanes : Lanes β) (e : Nat × β) (rest : Lanes β),
      (∀ l ∈ lanes, List.Chain' (fun a b => a.1 < b.1) l) →
      pickMin lanes = some (e, rest) →
      ∀ l ∈ rest, List.Chain' (fun a b => a.1 < b.1) l := by
  intro lanes
  induction lanes with
  | nil => intro e rest _ h; simp [pickMin] at h
  | cons l rst ih =>
    intro e rest hs h
    cases l with
    | nil =>
      cases hpm : pickMin rst with
      | none =>
        simp only [pickMin, hpm] at h
        exact Option.noConfusion h
      | some p =>
        obtain ⟨e2, rest2⟩ := p
        simp only [pickMin, hpm, Option.some.injEq, Prod.mk.injEq] at h
        obtain ⟨rfl, rfl⟩ := h
        intro l' hl'
        rcases List.mem_cons.mp hl' with rfl | hl'
        · exact List.chain'_nil
        · exact ih _ _ (fun q hq => hs q (List.mem_cons_of_mem _ hq))
            hpm l' hl'
    | cons hd xs =>
      obtain ⟨s, b⟩ := hd
      cases hpm : pickMin rst with
      | none =>
        simp only [pickMin, hpm, Option.some.injEq, Prod.mk.injEq] at h
        obtain ⟨rfl, rfl⟩ := h
        intro l' hl'
        rcases List.mem_cons.mp hl' with rfl | hl'
        · exact (hs _ (List.mem_cons_self _ _)).tail
        · exact hs l' (List.mem_cons_of_mem _ hl')
      | some p =>
        obtain ⟨⟨s2, b2⟩, rest2⟩ := p
        simp only [pickMin, hpm] at h
        by_cases hle : s ≤ s2
        · rw [if_pos hle] at h
          simp only [Option.some.injEq, Prod.mk.injEq] at h
          obtain ⟨rfl, rfl⟩ := h
          intro l' hl'
          rcases List.mem_cons.mp hl' with rfl | hl'
          · exact (hs _ (List.mem_cons_self _ _)).tail
          · exact hs l' (List.mem_cons_of_mem _ hl')
        · rw [if_neg hle] at h
          simp only [Option.some.injEq, Prod.mk.injEq] at h
          obtain ⟨rfl, rfl⟩ := h
          intro l' hl'
          rcases List.mem_cons.mp hl' with rfl | hl'
          · exact hs _ (List.mem_cons_self _ _)
          · exact ih _ _ (fun q hq => hs q (List.mem_cons_of_mem _ hq))
              hpm l' hl'

theorem pickMin_le {β : Type} :
    ∀ (lanes : Lanes β) (e : Nat × β) (rest : Lanes β),
      (∀ l ∈ lanes, List.Chain' (fun a b => a.1 < b.1) l) →
      pickMin lanes = some (e, rest) →
      ∀ x ∈ rest.flatten, e.1 ≤ x.1 := by
  intro lanes
  induction lanes with
  | nil => intro e rest _ h; simp [pickMin] at h
  | cons l rst ih =>
    intro e rest hs h
    cases l with
    | nil =>
      cases hpm : pickMin rst with
      | none =>
        simp only [pickMin, hpm] at h
        exact Option.noConfusion h
      | some p =>
        obtain ⟨e2, rest2⟩ := p
        simp only [pickMin, hpm, Option.some.injEq, Prod.mk.injEq] at h
        obtain ⟨rfl, rfl⟩ := h
        intro x hx
        simp only [List.flatten_cons, List.nil_append] at hx
        exact ih _ _ (fun q hq => hs q (List.mem_cons_of_mem _ hq))
          hpm x hx
    | cons hd xs =>
      obtain ⟨s, b⟩ := hd
      have hchain := hs _ (List.mem_cons_self _ _)
      cases hpm : pickMin rst with
      | none =>
        simp only [pickMin, hpm, Option.some.injEq, Prod.mk.injEq] at h
        obtain ⟨rfl, rfl⟩ := h
        intro x hx
        simp only [List.flatten_cons] at hx
        rcases List.mem_append.mp hx with hx | hx
        · exact Nat.le_of_lt (chain_head_lt _ _ hchain x hx)
        · rw [pickMin_eq_none rst hpm] at hx
          simp at hx
      | some p =>
        obtain ⟨⟨s2, b2⟩, rest2⟩ := p
        have hrest := ih _ _
          (fun q hq => hs q (List.mem_cons_of_mem _ hq)) hpm
        have hperm := pickMin_perm rst (s2, b2) rest2 hpm
        simp only [pickMin, hpm] at h
        by_cases hle : s ≤ s2
        · rw [if_pos hle] at h
          simp only [Option.some.injEq, Prod.mk.injEq] at h
          obtain ⟨rfl, rfl⟩ := h
          intro x hx
          simp only [List.flatten_cons] at hx
          rcases List.mem_append.mp hx with hx | hx
          · exact Nat.le_of_lt (chain_head_lt _ _ hchain x hx)
          · rcases List.mem_cons.mp (hperm.subset hx) with rfl | hx2
            · exact hle
            · exact Nat.le_trans hle (hrest x hx2)
        · rw [if_neg hle] at h
          simp only [Option.some.injEq, Prod.mk.injEq] at h
          obtain ⟨rfl, rfl⟩ := h
          have hs2s : s2 < s := Nat.lt_of_not_le hle
          intro x hx
          simp only [List.flatten_cons] at hx
          rcases List.mem_append.mp hx with hx | hx
          · rcases List.mem_cons.mp hx with rfl | hx2
            · exact Nat.le_of_lt hs2s
            · exact Nat.le_of_lt
                (Nat.lt_trans hs2s (chain_head_lt _ _ hchain x hx2))
          · exact hrest x hx

theorem mem_linearizeFuel {β : Type} :
    ∀ (fuel : Nat) (lanes : Lanes β) (x : Nat × β),
      x ∈ linearizeFuel fuel lanes → x ∈ lanes.flatten := by
  intro fuel
  induction fuel with
  | zero => intro lanes x hx; simp [linearizeFuel] at hx
  | succ fuel ih =>
    intro lanes x hx
    cases hpm : pickMin lanes with
    | none =>
      simp only [linearizeFuel, hpm] at hx
      exact absurd hx (List.not_mem_nil x)
    | some p =>
      obtain ⟨e, rest⟩ := p
      simp only [linearizeFuel, hpm] at hx
      have hperm := pickMin_perm lanes e rest hpm
      rcases List.mem_cons.mp hx with rfl | hx
      · exact hperm.symm.subset (List.mem_cons_self _ _)
      · exact hperm.symm.subset (List.mem_cons_of_mem _ (ih rest x hx))

theorem linearizeFuel_chain {β : Type} :
    ∀ (fuel : Nat) (lanes : Lanes β),
      (∀ l ∈ lanes, List.Chain' (fun a b => a.1 < b.1) l) →
      ((lanes.flatten.map Prod.fst).Nodup) →
      List.Chain' (fun a b => a.1 < b.1) (linearizeFuel fuel lanes) := by
  intro fuel
  induction fuel with
  | zero => intro lanes _ _; simp [linearizeFuel]
  | succ fuel ih =>
    intro lanes hs hn
    cases hpm : pickMin lanes with
    | none => simp only [linearizeFuel, hpm]; exact List.chain'_nil
    | some p =>
      obtain ⟨e, rest⟩ := p
      simp only [linearizeFuel, hpm]
      have hperm := pickMin_perm lanes e rest hpm
      have hn2 : ((e :: rest.flatten).map Prod.fst).Nodup :=
        (hperm.map Prod.fst).nodup hn
      rw [List.map_cons, List.nodup_cons] at hn2
      refine List.chain'_cons'.mpr ⟨?_, ?_⟩
      · intro y hy
        have hyl : y ∈ linearizeFuel fuel rest :=
          List.mem_of_mem_head? hy
        have hyf : y ∈ rest.flatten := mem_linearizeFuel fuel rest y hyl
        have hle : e.1 ≤ y.1 := pickMin_le lanes e rest hs hpm y hyf
        have hne : e.1 ≠ y.1 := by
          intro hcontra
          exact hn2.1 (hcontra ▸ List.mem_map_of_mem Prod.fst hyf)
        exact Nat.lt_of_le_of_ne hle hne
      · exact ih rest (pickMin_lanes_sorted lanes e rest hs hpm) hn2.2

end PolarsCsvSink

namespace PolarsCsvSink

theorem encoderGo_inserted_open (schema : List String) :
    ∀ (ms : List Morsel) (alloc i0 : Nat),
      (encoderGo (csvSinkEncodeDf schema) List.length (fun _ => false)
        ms alloc i0).inserted =
      ms.map (fun m => (m.seq, csvEncodeMorsel schema m.df)) := by
  intro ms
  induction ms with
  | nil => intro alloc i0; rfl
  | cons m ms ih =>
    intro alloc i0
    simp [encoderGo, csvSinkEncodeDf, ih]

theorem sinkEncodedLane_eq (schema : List String) (ms : List Morsel) :
    sinkEncodedLane schema ms =
      ms.map (fun m => (m.seq, csvEncodeMorsel schema m.df)) :=
  encoderGo_inserted_open schema ms _ _

/-- Claim C1: when maintain_order is true, the sequence of encoded buffers
the IO task drains from the linearizer carries strictly ascending morsel
sequence numbers, for every input in which each lane delivers its morsels
in ascending sequence order and sequence numbers are globally unique. -/
theorem maintain_order_ascending_seq (schema : List String)
    (lanes : List (List Morsel))
    (h1 : ∀ l ∈ lanes, List.Chain' (· < ·) (l.map Morsel.seq))
    (h2 : ((lanes.flatten).map Morsel.seq).Nodup) :
    List.Chain' (fun a b => a.1 < b.1)
      (ioWrittenBuffers true schema lanes) := by
  rw [ioWrittenBuffers, if_pos rfl]
  rw [linearizeOrdered]
  apply linearizeFuel_chain
  · intro l' hl'
    rw [List.mem_map] at hl'
    obtain ⟨ms, hms, rfl⟩ := hl'
    rw [sinkEncodedLane_eq]
    rw [List.chain'_map]
    have hms2 := h1 ms hms
    rw [List.chain'_map] at hms2
    exact hms2
  · have hmapeq : lanes.map (sinkEncodedLane schema) =
        lanes.map (List.map
          (fun m => (m.seq, csvEncodeMorsel schema m.df))) := by
      apply List.map_congr_left
      intro ms _
      exact sinkEncodedLane_eq schema ms
    rw [hmapeq, ← List.map_flatten, List.map_map]
    exact h2

theorem maintain_order_ascending_seq_witness :
    List.Chain' (fun a b => a.1 < b.1)
      (ioWrittenBuffers true ["a", "b"]
        [[⟨[["1", "x"]], 0⟩, ⟨[["3", "x"]], 2⟩],
         [⟨[["2", "y"]], 1⟩, ⟨[["4", "z"]], 3⟩]]) :=
  maintain_order_ascending_seq ["a", "b"] _
    (by intro l hl; fin_cases hl <;> simp [List.chain'_cons, Morsel.seq])
    (by decide)

end PolarsCsvSink

namespace PolarsScan

open PolarsCsvSink (PError)

/-- Claim C10: for a reader with glob() true whose path expansion succeeds
with zero files, finish returns a ComputeError whose message reads
"no matching files found in" followed by the original paths, rather than
succeeding with an empty frame. -/
theorem finish_empty_glob_error {α : Type} (r : LazyReader α)
    (hg : r.glob = true)
    (he : r.expandPathsDefaultResult = Except.ok []) :
    LazyFileListReader.finish r =
      Except.error (PError.computeError
        ("no matching files found in " ++ pathsDebugRepr r.srcPaths)) := by
  rw [LazyFileListReader.finish, hg, he]
  rfl

theorem finish_empty_glob_error_witness :
    LazyFileListReader.finish emptyGlobReader =
      Except.error (PError.computeError
        ("no matching files found in "
          ++ pathsDebugRepr emptyGlobReader.srcPaths)) :=
  finish_empty_glob_error emptyGlobReader rfl rfl

end PolarsScan
